import Mathlib

/-!
Verification of the metadata assembly engine of gh-release-apt.

Text is modelled as List Char.  JavaScript string operations used by the
sources (String.prototype.split with a single-character separator, split on
the blank-line regex of parsePackagesFile, trim, startsWith, substring,
toLowerCase, join) are given executable models below, and the exported
functions of src/github.mjs, src/repository.mjs, src/assembleAction.mjs and
src/cli.mjs are translated on top of them.  Filesystem reads, the network
transport and the crypto hash are abstracted as explicit function
parameters.
-/

namespace GhReleaseApt

/-- Whitespace class of the JavaScript regular expression escape for
whitespace, restricted to the ASCII whitespace characters. -/
def isWsp (c : Char) : Bool :=
  c == ' ' || c == '\t' || c == '\n' || c == '\r' || c == '\x0b' || c == '\x0c'

/-- Splitting a character list at every occurrence of one character: the
model of JavaScript String.prototype.split with a one-character separator
(line splitting on a newline in parsePackagesFile, and the slash split in
parseRepository). -/
def splitChar (sep : Char) : List Char → List (List Char)
  | [] => [[]]
  | c :: cs =>
    if c == sep then [] :: splitChar sep cs
    else
      match splitChar sep cs with
      | [] => [[c]]
      | l :: ls => (c :: l) :: ls

/-- Model of JavaScript String.prototype.trim: whitespace stripped from both
ends. -/
def jsTrim (l : List Char) : List Char :=
  ((l.dropWhile isWsp).reverse.dropWhile isWsp).reverse

/-- Index of the last newline of a character list, if any. -/
def lastNewline : List Char → Option Nat
  | [] => none
  | c :: cs =>
    match lastNewline cs with
    | some j => some (j + 1)
    | none => if c == '\n' then some 0 else none

/-- Length of the match of the blank-line separator regular expression of
parsePackagesFile (a newline, a greedy whitespace star, a newline) at the
head of the text, if it matches there.  After greedy matching and
backtracking, the match runs from the first newline through the last newline
of the whitespace run that follows it. -/
def sepMatchLen : List Char → Option Nat
  | [] => none
  | c :: cs =>
    if c == '\n' then
      match lastNewline (cs.takeWhile isWsp) with
      | some j => some (j + 2)
      | none => none
    else none

/-- Leftmost match of the blank-line separator in a text: the text before
the match and the text after it. -/
def findSep : List Char → Option (List Char × List Char)
  | [] => none
  | c :: cs =>
    match sepMatchLen (c :: cs) with
    | some n => some ([], (c :: cs).drop n)
    | none =>
      match findSep cs with
      | some (b, a) => some (c :: b, a)
      | none => none

/-- Fuelled splitting loop for the blank-line separator. -/
def jsSplitGo : Nat → List Char → List (List Char)
  | 0, s => [s]
  | n + 1, s =>
    match findSep s with
    | none => [s]
    | some (b, a) => b :: jsSplitGo n a

/-- Model of content.split on the blank-line regular expression in
parsePackagesFile (src/repository.mjs line 59).  The fuel bound by the
length of the text is always sufficient because every separator match is at
least two characters long. -/
def jsSplitBlank (s : List Char) : List (List Char) := jsSplitGo s.length s

/-- Whether a character list contains a character outside the whitespace
class; equivalently, whether its trim is nonempty, which is the truthiness
test of the entry filter in parsePackagesFile. -/
def hasNonWsp (l : List Char) : Bool := l.any (fun c => !(isWsp c))

/-- The entry blocks of a control-file fragment: the text split on
blank-line boundaries, discarding blocks that are empty after trimming
(src/repository.mjs line 59). -/
def parseBlocks (content : List Char) : List (List Char) :=
  (jsSplitBlank content).filter hasNonWsp

/-- Model of Array.prototype.join with an arbitrary separator. -/
def jsJoin (sep : List Char) : List (List Char) → List Char
  | [] => []
  | [e] => e
  | e :: es => e ++ sep ++ jsJoin sep es

/-- Serialization of entry blocks: the blocks joined with one blank line and
a trailing newline appended (src/assembleAction.mjs line 58). -/
def serializeFragment (entries : List (List Char)) : List Char :=
  jsJoin ['\n', '\n'] entries ++ ['\n']

/-- Field name and value carried by one line: the name is what precedes the
first colon and the value is everything after it, trimmed, following the
per-line convention of the field scans in parsePackagesFile. -/
def lineField (line : List Char) : Option (List Char × List Char) :=
  if line.any (fun c => c == ':') then
    some (line.takeWhile (fun c => !(c == ':')),
          jsTrim ((line.dropWhile (fun c => !(c == ':'))).drop 1))
  else none

/-- The field and value pairs of one entry block, line by line. -/
def entryFields (entry : List Char) : List (List Char × List Char) :=
  (splitChar '\n' entry).filterMap lineField

/-- A well-formed entry text block: every line has a character outside the
whitespace class, so the block is nonempty, contains no blank line, and
neither starts nor ends with a newline. -/
def wellFormedEntry (e : List Char) : Bool :=
  (splitChar '\n' e).all hasNonWsp

/-- Model of Node's posix path.basename: trailing separators are dropped and
the portion after the last remaining separator is returned. -/
def posixBasename (p : List Char) : List Char :=
  let stripped := (p.reverse.dropWhile (fun c => c == '/')).reverse
  if stripped = [] then (if p = [] then [] else ['/'])
  else (stripped.reverse.takeWhile (fun c => !(c == '/'))).reverse

/-- One step of the per-line scan of parsePackagesFile
(src/repository.mjs lines 66 to 74): a line with the Filename prefix sets
the filename to the basename of the trimmed value, otherwise a line with the
SHA256 prefix sets the digest to the trimmed value. -/
def scanPackagesLine (st : Option (List Char) × Option (List Char)) (line : List Char) :
    Option (List Char) × Option (List Char) :=
  if (("Filename:").toList).isPrefixOf line then
    (some (posixBasename (jsTrim (line.drop (("Filename:").toList).length))), st.2)
  else if (("SHA256:").toList).isPrefixOf line then
    (st.1, some (jsTrim (line.drop (("SHA256:").toList).length)))
  else st

/-- The filename and digest extracted from one entry block by
parsePackagesFile's line loop; the last occurrence of each field wins. -/
def scanPackagesEntry (entry : List Char) : Option (List Char) × Option (List Char) :=
  (splitChar '\n' entry).foldl scanPackagesLine (none, none)

/-- Model of a JavaScript Map as an insertion-ordered association list:
set replaces the value of an existing key in place, otherwise appends. -/
def mapSet (m : List (List Char × List Char)) (k v : List Char) :
    List (List Char × List Char) :=
  if m.any (fun p => p.1 == k) then
    m.map (fun p => if p.1 == k then (k, v) else p)
  else m ++ [(k, v)]

/-- Lookup in the association-list model of a JavaScript Map. -/
def mapGet (m : List (List Char × List Char)) (k : List Char) : Option (List Char) :=
  (m.find? (fun p => p.1 == k)).map (fun p => p.2)

/-- Whether the entry block would store the given filename key in the
checksum index: its scan yields a nonempty filename equal to the key and a
nonempty digest. -/
def entrySetsKey (entry f : List Char) : Bool :=
  match scanPackagesEntry entry with
  | (some f', some s') => !f'.isEmpty && !s'.isEmpty && f' == f
  | _ => false

/-- The per-entry update of the checksum index: an entry whose scan produced
a truthy filename and digest stores the pair (src/repository.mjs lines 76 to
80). -/
def indexInsert (m : List (List Char × List Char)) (entry : List Char) :
    List (List Char × List Char) :=
  match scanPackagesEntry entry with
  | (some f, some s) => if !f.isEmpty && !s.isEmpty then mapSet m f s else m
  | _ => m

/-- The checksum index accumulated over the entry blocks, later entries
overwriting earlier ones (src/repository.mjs lines 61 to 81). -/
def buildChecksumIndex (blocks : List (List Char)) : List (List Char × List Char) :=
  blocks.foldl indexInsert []

/-- The filename-to-digest map parsePackagesFile extracts from the text of a
Packages file (src/repository.mjs lines 59 to 81). -/
def parsePackagesContent (content : List Char) : List (List Char × List Char) :=
  buildChecksumIndex (parseBlocks content)

/-- parsePackagesFile (src/repository.mjs lines 52 to 91) over an abstract
filesystem read: a read failure of any kind, a missing file included, yields
the empty map; otherwise the content is parsed. -/
def parsePackagesFile (ε : Type) (readFile : List Char → Except ε (List Char))
    (packagesPath : List Char) : List (List Char × List Char) :=
  match readFile packagesPath with
  | Except.error _ => []
  | Except.ok content => parsePackagesContent content

/-- A GitHub release asset as consumed by src/github.mjs: a name and an
optional digest string. -/
structure Asset where
  name : List Char
  digest : Option (List Char)
deriving DecidableEq

/-- A GitHub release as consumed by src/github.mjs: a tag name and assets. -/
structure Release where
  tag_name : List Char
  assets : List Asset
deriving DecidableEq

/-- filterDebAssets (src/github.mjs lines 48 to 52): the assets whose name
ends in the deb extension. -/
def filterDebAssets (release : Release) : List Asset :=
  release.assets.filter (fun a => ((".deb").toList).isSuffixOf a.name)

/-- extractAssetSHA256 (src/github.mjs lines 59 to 64): the digest with its
algorithm tag removed when the digest starts with the lowercase sha256 tag,
and null otherwise (a missing digest included). -/
def extractAssetSHA256 (a : Asset) : Option (List Char) :=
  match a.digest with
  | some d =>
    if (("sha256:").toList).isPrefixOf d then some (d.drop (("sha256:").toList).length)
    else none
  | none => none

/-- Model of path.join of two segments. -/
def pathJoin (a b : List Char) : List Char := a ++ '/' :: b

/-- Model of String.prototype.toLowerCase over the ASCII range. -/
def toLowerL (l : List Char) : List Char := l.map Char.toLower

/-- The skip condition of categorizeAssetsByChecksum
(src/github.mjs lines 82 to 84): a truthy recorded digest, a truthy
extracted asset digest, case-insensitive equality of the two, and a file
present at the target path.  The filesystem is abstracted as an existence
predicate. -/
def shouldSkipAsset (existingChecksums : List (List Char × List Char))
    (downloadDir : List Char) (fsExists : List Char → Bool) (a : Asset) : Bool :=
  match mapGet existingChecksums a.name, extractAssetSHA256 a with
  | some e, some s =>
    !e.isEmpty && !s.isEmpty && (toLowerL e == toLowerL s) &&
      fsExists (pathJoin downloadDir a.name)
  | _, _ => false

/-- categorizeAssetsByChecksum (src/github.mjs lines 73 to 94): partitions
the assets, in order, into the list to download and the list to skip, each
paired with its target path. -/
def categorizeAssetsByChecksum (assets : List Asset)
    (existingChecksums : List (List Char × List Char)) (downloadDir : List Char)
    (fsExists : List Char → Bool) :
    List (Asset × List Char) × List (Asset × List Char) :=
  match assets with
  | [] => ([], [])
  | a :: rest =>
    let r := categorizeAssetsByChecksum rest existingChecksums downloadDir fsExists
    let fp := pathJoin downloadDir a.name
    if shouldSkipAsset existingChecksums downloadDir fsExists a then
      (r.1, (a, fp) :: r.2)
    else ((a, fp) :: r.1, r.2)

/-- downloadDebAssets (src/github.mjs lines 106 to 138) with the filesystem
abstracted as a partial content map and the transfers assumed to succeed:
the deb assets are filtered, the existing checksum record next to them is
parsed, the assets are categorized, and the returned path list is the
skipped paths followed by the downloaded paths. -/
def downloadDebAssets (release : Release) (owner repo outputDir : List Char)
    (fsContents : List Char → Option (List Char)) : List (List Char) :=
  let debAssets := filterDebAssets release
  let downloadDir :=
    pathJoin (pathJoin (pathJoin (pathJoin outputDir (("pool").toList)) owner) repo)
      release.tag_name
  let packagesPath := pathJoin downloadDir (("Packages").toList)
  let existingChecksums := parsePackagesFile Unit
    (fun p => match fsContents p with
      | some c => Except.ok c
      | none => Except.error ()) packagesPath
  let r := categorizeAssetsByChecksum debAssets existingChecksums downloadDir
    (fun p => (fsContents p).isSome)
  r.2.map (fun p => p.2) ++ r.1.map (fun p => p.2)

/-- Modelled from the spec: extractField of the Control-File Codec
(spec section 4.1), a linear scan for the first line whose prefix is the
field name followed by a colon, returning its trimmed value.  The function
extractEntriesByArchitecture that uses it is exported by src/repository.mjs
and imported by src/assembleAction.mjs, but its defining source is not among
the repository sources. -/
def extractField (entry fieldName : List Char) : Option (List Char) :=
  ((splitChar '\n' entry).find? (fun l => (fieldName ++ [':']).isPrefixOf l)).map
    (fun l => jsTrim (l.drop (fieldName ++ [':']).length))

/-- Modelled from the spec: extractEntriesByArchitecture
(spec section 4.4), whose defining source is missing from the repository
sources although src/assembleAction.mjs and src/cli.mjs import it from
src/repository.mjs.  The fragment is parsed into entry blocks, the
Architecture field is extracted per entry, entries lacking it are dropped,
and each surviving trimmed entry is paired with its architecture. -/
def extractEntriesByArchitecture (content : List Char) : List (List Char × List Char) :=
  (parseBlocks content).filterMap
    (fun e => (extractField e (("Architecture").toList)).map (fun a => (a, jsTrim e)))

/-- One grouping step of assembleAction (src/assembleAction.mjs lines 36 to
41): the entry is appended under its architecture key, a new key being
appended at the end of the insertion-ordered map. -/
def insertEntry (m : List (List Char × List (List Char))) (arch entry : List Char) :
    List (List Char × List (List Char)) :=
  if m.any (fun p => p.1 == arch) then
    m.map (fun p => if p.1 == arch then (p.1, p.2 ++ [entry]) else p)
  else m ++ [(arch, [entry])]

/-- The grouping loop of assembleAction (src/assembleAction.mjs lines 30 to
42) over the fragment texts found under the pool directory. -/
def groupByArchitecture (fragments : List (List Char)) :
    List (List Char × List (List Char)) :=
  fragments.foldl
    (fun m content =>
      (extractEntriesByArchitecture content).foldl (fun m p => insertEntry m p.1 p.2) m)
    []

/-- The observable output of one assemble run: the per-architecture Packages
files in the order they are written, and the architecture list handed to the
release manifest builder. -/
structure AssembleOutput where
  perArch : List (List Char × List Char)
  releaseArchitectures : List (List Char)
deriving DecidableEq

/-- assembleAction (src/assembleAction.mjs lines 17 to 71) with the
filesystem abstracted: the fragments found under the pool directory are
given as texts.  No fragments is an error; grouping yields the
insertion-ordered architecture map; an empty map is an error; otherwise one
Packages text per architecture is emitted in map iteration order and the map
keys, in that same order, are handed to the release manifest builder. -/
def assembleAction (fragments : List (List Char)) : Except (List Char) AssembleOutput :=
  if fragments.isEmpty then Except.error (("No Packages files found").toList)
  else
    let entriesByArch := groupByArchitecture fragments
    if entriesByArch.isEmpty then
      Except.error (("No package entries with Architecture field found").toList)
    else
      Except.ok
        { perArch := entriesByArch.map (fun p => (p.1, serializeFragment p.2)),
          releaseArchitectures := entriesByArch.map (fun p => p.1) }

/-- A file visible to the release manifest builder: its path, its decoded
text content, and its byte size as reported by the filesystem stat call. -/
structure RepoFile where
  path : List Char
  content : List Char
  size : Nat
deriving DecidableEq

/-- Model of findFilesRecursive (src/assembleAction.mjs lines 137 to 142)
over an abstract directory listing: the files under the directory whose
basename is the requested filename, in traversal order. -/
def findFilesRecursive (files : List RepoFile) (dir fname : List Char) : List RepoFile :=
  files.filter (fun f => (dir ++ ['/']).isPrefixOf f.path && posixBasename f.path == fname)

/-- Model of path.relative for a path lying under the base directory. -/
def relativePath (base p : List Char) : List Char :=
  if (base ++ ['/']).isPrefixOf p then p.drop (base.length + 1) else p

/-- The checksum line contributed to the Release file by one discovered
Packages file (src/assembleAction.mjs line 112): a leading space, the hex
digest of the decoded content, the stat size and the path relative to the
distribution root, space-separated, with a trailing newline.  The crypto
hash is abstracted as a function parameter. -/
def releaseLine (distPath : List Char) (sha256hex : List Char → List Char)
    (f : RepoFile) : List Char :=
  ' ' :: sha256hex f.content ++ ' ' :: (Nat.repr f.size).toList ++
    ' ' :: relativePath distPath f.path ++ ['\n']

/-- makeReleaseContent (src/assembleAction.mjs lines 98 to 115): the fixed
preamble with the architectures joined by single spaces and the date
inserted, the SHA256 section header, then one checksum line per discovered
Packages file under the distribution root. -/
def makeReleaseContent (distPath : List Char) (architectures : List (List Char))
    (files : List RepoFile) (sha256hex : List Char → List Char) (date : List Char) :
    List Char :=
  let header :=
    ("Suite: stable\nArchitectures: ").toList ++ jsJoin [' '] architectures ++
      ("\nComponents: main\nDate: ").toList ++ date ++ ("\nSHA256:\n").toList
  (findFilesRecursive files distPath (("Packages").toList)).foldl
    (fun acc f => acc ++ releaseLine distPath sha256hex f) header

/-- parseRepository (src/cli.mjs lines 17 to 23): the identifier split on
slashes must give exactly two truthy parts. -/
def parseRepository (s : List Char) : Except (List Char) (List Char × List Char) :=
  match splitChar '/' s with
  | [o, r] =>
    if o.isEmpty || r.isEmpty then
      Except.error (("Invalid repository format. Use owner/repo").toList)
    else Except.ok (o, r)
  | _ => Except.error (("Invalid repository format. Use owner/repo").toList)

/-- One step of first-occurrence deduplication: a name already present is
dropped, a new name is appended. -/
def dedupStep (acc : List (List Char)) (a : List Char) : List (List Char) :=
  if acc.any (fun x => x == a) then acc else acc ++ [a]

/-- The distinct names of a list in first-occurrence order: the key order of
an insertion-ordered map built by appending new keys. -/
def dedupFirst (l : List (List Char)) : List (List Char) :=
  l.foldl dedupStep []

/-- The architecture names of all surviving entries, in fragment scan order
and entry order within each fragment. -/
def scannedArchs (fragments : List (List Char)) : List (List Char) :=
  fragments.foldl (fun acc f => acc ++ (extractEntriesByArchitecture f).map Prod.fst) []

/-! ## Splitting on a single character -/

theorem splitChar_ne_nil (sep : Char) (l : List Char) : splitChar sep l ≠ [] := by
  induction l with
  | nil => simp [splitChar]
  | cons c cs ih =>
    by_cases hc : c == sep
    · simp [splitChar, hc]
    · simp only [splitChar, hc, Bool.false_eq_true, if_false]
      cases h : splitChar sep cs with
      | nil => simp
      | cons a as => simp

theorem splitChar_no_sep_mem (sep : Char) (l : List Char) :
    ∀ part ∈ splitChar sep l, sep ∉ part := by
  induction l with
  | nil =>
    intro part hp
    simp [splitChar] at hp
    simp [hp]
  | cons c cs ih =>
    intro part hp
    by_cases hc : c == sep
    · simp only [splitChar, hc, if_true] at hp
      rcases List.mem_cons.mp hp with hp1 | hp1
      · simp [hp1]
      · exact ih part hp1
    · simp only [splitChar, hc, Bool.false_eq_true, if_false] at hp
      cases h : splitChar sep cs with
      | nil => exact absurd h (splitChar_ne_nil sep cs)
      | cons a as =>
        rw [h] at hp
        rcases List.mem_cons.mp hp with hp1 | hp1
        · subst hp1
          intro hmem
          rcases List.mem_cons.mp hmem with hh | hh
          · exact hc (by simp [hh])
          · exact ih a (by simp [h]) hh
        · exact ih part (by simp [h, hp1])

theorem jsJoin_splitChar (sep : Char) (l : List Char) :
    jsJoin [sep] (splitChar sep l) = l := by
  induction l with
  | nil => simp [splitChar, jsJoin]
  | cons c cs ih =>
    by_cases hc : c == sep
    · simp only [splitChar, hc, if_true]
      cases h : splitChar sep cs with
      | nil => exact absurd h (splitChar_ne_nil sep cs)
      | cons a as =>
        rw [h] at ih
        have : jsJoin [sep] ([] :: a :: as) = sep :: jsJoin [sep] (a :: as) := rfl
        rw [this, ih]
        have : c = sep := by simpa using hc
        rw [this]
    · simp only [splitChar, hc, Bool.false_eq_true, if_false]
      cases h : splitChar sep cs with
      | nil => exact absurd h (splitChar_ne_nil sep cs)
      | cons a as =>
        rw [h] at ih
        cases as with
        | nil => simpa [jsJoin] using congrArg (fun t => c :: t) ih
        | cons b bs =>
          have : jsJoin [sep] ((c :: a) :: b :: bs) = (c :: a) ++ [sep] ++ jsJoin [sep] (b :: bs) := rfl
          rw [this]
          have h2 : jsJoin [sep] (a :: b :: bs) = a ++ [sep] ++ jsJoin [sep] (b :: bs) := rfl
          rw [h2] at ih
          simpa using congrArg (fun t => c :: t) ih

theorem splitChar_append_sep (sep : Char) (l rest : List Char) (hl : sep ∉ l) :
    splitChar sep (l ++ sep :: rest) = l :: splitChar sep rest := by
  induction l with
  | nil => simp [splitChar]
  | cons c l' ih =>
    have hc : ¬(c == sep) = true := by
      simp only [beq_iff_eq]
      intro h
      exact hl (by simp [h])
    have hl' : sep ∉ l' := fun h => hl (by simp [h])
    simp only [List.cons_append, splitChar, hc, Bool.false_eq_true, if_false,
      List.append_eq, ih hl']

theorem splitChar_eq_single (sep : Char) (l : List Char) (hl : sep ∉ l) :
    splitChar sep l = [l] := by
  induction l with
  | nil => simp [splitChar]
  | cons c l' ih =>
    have hc : ¬(c == sep) = true := by
      simp only [beq_iff_eq]
      intro h
      exact hl (by simp [h])
    have hl' : sep ∉ l' := fun h => hl (by simp [h])
    simp only [splitChar, hc, Bool.false_eq_true, if_false, ih hl']

/-! ## Claim C10: parseRepository accepts exactly one interior slash -/

/-- Claim C10: parseRepository returns the owner and repository exactly when
the identifier consists of a nonempty slash-free owner, one slash, and a
nonempty slash-free repository; every other input yields the invalid-format
error. -/
theorem parseRepository_spec (s : List Char) :
    (∀ o r, s = o ++ '/' :: r → '/' ∉ o → '/' ∉ r → o ≠ [] → r ≠ [] →
      parseRepository s = Except.ok (o, r)) ∧
    ((¬ ∃ o r, s = o ++ '/' :: r ∧ '/' ∉ o ∧ '/' ∉ r ∧ o ≠ [] ∧ r ≠ []) →
      parseRepository s = Except.error (("Invalid repository format. Use owner/repo").toList)) := by
  constructor
  · intro o r hs ho hr hob hrb
    subst hs
    have hsp : splitChar '/' (o ++ '/' :: r) = [o, r] := by
      rw [splitChar_append_sep '/' o r ho, splitChar_eq_single '/' r hr]
    simp only [parseRepository, hsp]
    cases o with
    | nil => exact absurd rfl hob
    | cons oc ot =>
      cases r with
      | nil => exact absurd rfl hrb
      | cons rc rt => simp [List.isEmpty]
  · intro hno
    cases hsp : splitChar '/' s with
    | nil => exact absurd hsp (splitChar_ne_nil '/' s)
    | cons o tail =>
      cases tail with
      | nil => simp only [parseRepository, hsp]
      | cons r tail2 =>
        cases tail2 with
        | nil =>
          have hjoin := jsJoin_splitChar '/' s
          rw [hsp] at hjoin
          have hs : s = o ++ '/' :: r := by
            have : jsJoin ['/'] [o, r] = o ++ ['/'] ++ r := rfl
            rw [this] at hjoin
            simpa using hjoin.symm
          have ho : '/' ∉ o := splitChar_no_sep_mem '/' s o (by simp [hsp])
          have hr : '/' ∉ r := splitChar_no_sep_mem '/' s r (by simp [hsp])
          simp only [parseRepository, hsp]
          by_cases hob : o = []
          · subst hob
            simp [List.isEmpty]
          · by_cases hrb : r = []
            · subst hrb
              cases o with
              | nil => exact absurd rfl hob
              | cons oc ot => simp [List.isEmpty]
            · exact absurd ⟨o, r, hs, ho, hr, hob, hrb⟩ hno
        | cons x t => simp only [parseRepository, hsp]

/-- Witness for claim C10: a well-formed identifier is accepted with its two
parts, and an identifier without any slash is rejected. -/
theorem parseRepository_spec_witness :
    parseRepository (("a/b").toList) = Except.ok ((("a").toList), (("b").toList)) ∧
    parseRepository (("ab").toList) =
      Except.error (("Invalid repository format. Use owner/repo").toList) := by
  constructor
  · exact (parseRepository_spec (("a/b").toList)).1 (("a").toList) (("b").toList)
      (by decide) (by decide) (by decide) (by decide) (by decide)
  · refine (parseRepository_spec (("ab").toList)).2 ?_
    rintro ⟨o, r, hs, ho, hr, hob, hrb⟩
    have hmem : '/' ∈ ("ab").toList := by
      rw [hs]
      exact List.mem_append.mpr (Or.inr (List.mem_cons_self _ _))
    exact absurd hmem (by decide)

/-! ## The blank-line separator match -/

theorem lastNewline_eq_none (l : List Char) (h : '\n' ∉ l) : lastNewline l = none := by
  induction l with
  | nil => rfl
  | cons c cs ih =>
    have hc : ¬(c == '\n') = true := by
      simp only [beq_iff_eq]
      intro hh
      exact h (by simp [hh])
    have h' : '\n' ∉ cs := fun hh => h (by simp [hh])
    simp [lastNewline, ih h', hc]

theorem sepMatchLen_ge_two (s : List Char) (n : Nat) (h : sepMatchLen s = some n) :
    2 ≤ n := by
  cases s with
  | nil => simp [sepMatchLen] at h
  | cons c cs =>
    simp only [sepMatchLen] at h
    split at h
    · split at h
      · have := Option.some.inj h
        omega
      · exact absurd h (by simp)
    · exact absurd h (by simp)

theorem findSep_shrink (s b a : List Char) (h : findSep s = some (b, a)) :
    a.length < s.length := by
  induction s generalizing b a with
  | nil => simp [findSep] at h
  | cons c cs ih =>
    simp only [findSep] at h
    cases hm : sepMatchLen (c :: cs) with
    | some n =>
      rw [hm] at h
      simp only [Option.some.injEq, Prod.mk.injEq] at h
      have hn := sepMatchLen_ge_two (c :: cs) n hm
      have ha : a = (c :: cs).drop n := h.2.symm
      subst ha
      simp only [List.length_drop, List.length_cons]
      omega
    | none =>
      rw [hm] at h
      cases hf : findSep cs with
      | none => rw [hf] at h; exact absurd h (by simp)
      | some p =>
        obtain ⟨b', a'⟩ := p
        rw [hf] at h
        simp only [Option.some.injEq, Prod.mk.injEq] at h
        have := ih b' a' hf
        have ha : a = a' := h.2.symm
        subst ha
        simp only [List.length_cons]
        omega

theorem jsSplitGo_fuel (n : Nat) : ∀ (m : Nat) (s : List Char), s.length ≤ n →
    s.length ≤ m → jsSplitGo n s = jsSplitGo m s := by
  induction n with
  | zero =>
    intro m s hn _
    have hs : s = [] := List.length_eq_zero.mp (Nat.le_zero.mp hn)
    subst hs
    cases m with
    | zero => rfl
    | succ m => simp [jsSplitGo, findSep]
  | succ n ih =>
    intro m s hn hm
    cases m with
    | zero =>
      have hs : s = [] := List.length_eq_zero.mp (Nat.le_zero.mp hm)
      subst hs
      simp [jsSplitGo, findSep]
    | succ m =>
      simp only [jsSplitGo]
      cases hf : findSep s with
      | none => rfl
      | some p =>
        obtain ⟨b, a⟩ := p
        have hlt := findSep_shrink s b a hf
        show b :: jsSplitGo n a = b :: jsSplitGo m a
        rw [ih m a (by omega) (by omega)]

theorem jsSplitBlank_eq (s : List Char) :
    jsSplitBlank s = (match findSep s with
      | none => [s]
      | some (b, a) => b :: jsSplitBlank a) := by
  unfold jsSplitBlank
  cases hl : s.length with
  | zero =>
    have hs : s = [] := List.length_eq_zero.mp (by omega)
    subst hs
    simp [jsSplitGo, findSep]
  | succ k =>
    simp only [jsSplitGo]
    cases hf : findSep s with
    | none => rfl
    | some p =>
      obtain ⟨b, a⟩ := p
      have hlt := findSep_shrink s b a hf
      show b :: jsSplitGo k a = b :: jsSplitGo a.length a
      rw [jsSplitGo_fuel k a.length a (by omega) (le_refl _)]

theorem findSep_cons_not_nl (c : Char) (cs : List Char) (hc : ¬ c = '\n') :
    findSep (c :: cs) = (findSep cs).map (fun p => (c :: p.1, p.2)) := by
  have hm : sepMatchLen (c :: cs) = none := by
    simp [sepMatchLen, hc]
  simp only [findSep, hm]
  cases hf : findSep cs with
  | none => simp
  | some p =>
    obtain ⟨b, a⟩ := p
    simp

theorem findSep_cons_nl (cs : List Char) (h : '\n' ∉ cs.takeWhile isWsp) :
    findSep ('\n' :: cs) = (findSep cs).map (fun p => ('\n' :: p.1, p.2)) := by
  have hm : sepMatchLen ('\n' :: cs) = none := by
    simp [sepMatchLen, lastNewline_eq_none _ h]
  simp only [findSep, hm]
  cases hf : findSep cs with
  | none => simp
  | some p =>
    obtain ⟨b, a⟩ := p
    simp

theorem findSep_append_noNl (l s : List Char) (hl : '\n' ∉ l) :
    findSep (l ++ s) = (findSep s).map (fun p => (l ++ p.1, p.2)) := by
  induction l with
  | nil =>
    simp only [List.nil_append]
    cases hf : findSep s with
    | none => simp
    | some p =>
      obtain ⟨b, a⟩ := p
      simp
  | cons c l' ih =>
    have hc : ¬ c = '\n' := fun h => hl (by simp [h])
    have hl' : '\n' ∉ l' := fun h => hl (by simp [h])
    rw [List.cons_append, findSep_cons_not_nl c _ hc, ih hl']
    cases hf : findSep s with
    | none => simp
    | some p =>
      obtain ⟨b, a⟩ := p
      simp

theorem findSep_sep (rest : List Char) (h : '\n' ∉ rest.takeWhile isWsp) :
    findSep ('\n' :: '\n' :: rest) = some ([], rest) := by
  have htake : (('\n' :: rest).takeWhile isWsp) = '\n' :: rest.takeWhile isWsp := by
    rw [List.takeWhile_cons_of_pos (by decide)]
  have hlast : lastNewline (('\n' :: rest).takeWhile isWsp) = some 0 := by
    rw [htake]
    simp [lastNewline, lastNewline_eq_none _ h]
  have hm : sepMatchLen ('\n' :: '\n' :: rest) = some 2 := by
    simp [sepMatchLen, hlast]
  simp [findSep, hm]

/-! ## Well-formed entry blocks -/

theorem takeWhile_append_stop (l s : List Char) (h : hasNonWsp l = true) :
    (l ++ s).takeWhile isWsp = l.takeWhile isWsp := by
  induction l with
  | nil => simp [hasNonWsp] at h
  | cons c l' ih =>
    by_cases hcw : isWsp c
    · have h' : hasNonWsp l' = true := by
        simpa [hasNonWsp, hcw] using h
      rw [List.cons_append, List.takeWhile_cons_of_pos hcw,
        List.takeWhile_cons_of_pos hcw, ih h']
    · rw [List.cons_append, List.takeWhile_cons_of_neg (by simpa using hcw),
        List.takeWhile_cons_of_neg (by simpa using hcw)]

theorem wellFormedEntry_cons_nl_false (e : List Char) :
    ¬ wellFormedEntry ('\n' :: e) = true := by
  simp [wellFormedEntry, splitChar, hasNonWsp]

theorem wellFormedEntry_tail_wsp (c : Char) (e : List Char) (hw : isWsp c = true)
    (hc : ¬ c = '\n') (h : wellFormedEntry (c :: e) = true) :
    wellFormedEntry e = true := by
  have hcb : ¬(c == '\n') = true := by simp [hc]
  cases hsp : splitChar '\n' e with
  | nil => exact absurd hsp (splitChar_ne_nil _ _)
  | cons l ls =>
    simp only [wellFormedEntry, splitChar, hcb, Bool.false_eq_true, if_false, hsp,
      List.all_cons, Bool.and_eq_true] at h
    simp only [wellFormedEntry, hsp, List.all_cons, Bool.and_eq_true]
    rcases h with ⟨h1, h2⟩
    refine ⟨?_, h2⟩
    simpa [hasNonWsp, hw] using h1

theorem hasNonWsp_of_wellFormed (e : List Char) (h : wellFormedEntry e = true) :
    hasNonWsp e = true := by
  induction e with
  | nil => exact absurd h (by decide)
  | cons c e' ih =>
    by_cases hc : c = '\n'
    · subst hc
      exact absurd h (wellFormedEntry_cons_nl_false e')
    · by_cases hw : isWsp c
      · have h' := wellFormedEntry_tail_wsp c e' hw hc h
        have h2 := ih h'
        simp only [hasNonWsp] at h2 ⊢
        simp only [List.any_cons, h2, Bool.or_true]
      · simp [hasNonWsp, List.any_cons, hw]

theorem noNl_takeWhile_of_wellFormed (e : List Char) (h : wellFormedEntry e = true) :
    '\n' ∉ e.takeWhile isWsp := by
  induction e with
  | nil => simp
  | cons c e' ih =>
    by_cases hc : c = '\n'
    · subst hc
      exact absurd h (wellFormedEntry_cons_nl_false e')
    · by_cases hw : isWsp c
      · have h' := wellFormedEntry_tail_wsp c e' hw hc h
        rw [List.takeWhile_cons_of_pos hw]
        intro hmem
        rcases List.mem_cons.mp hmem with hh | hh
        · exact hc hh.symm
        · exact ih h' hh
      · rw [List.takeWhile_cons_of_neg (by simpa using hw)]
        simp

theorem noNl_takeWhile_append (e x : List Char) (h : wellFormedEntry e = true) :
    '\n' ∉ (e ++ x).takeWhile isWsp := by
  rw [takeWhile_append_stop e x (hasNonWsp_of_wellFormed e h)]
  exact noNl_takeWhile_of_wellFormed e h

theorem line_decomp (e : List Char) :
    '\n' ∉ e ∨ ∃ l1 e2, e = l1 ++ '\n' :: e2 ∧ '\n' ∉ l1 := by
  induction e with
  | nil => exact Or.inl (by simp)
  | cons c e' ih =>
    by_cases hc : c = '\n'
    · subst hc
      exact Or.inr ⟨[], e', by simp, by simp⟩
    · rcases ih with h | ⟨l1, e2, he, hl⟩
      · refine Or.inl ?_
        intro hmem
        rcases List.mem_cons.mp hmem with hh | hh
        · exact hc hh.symm
        · exact h hh
      · refine Or.inr ⟨c :: l1, e2, by simp [he], ?_⟩
        intro hmem
        rcases List.mem_cons.mp hmem with hh | hh
        · exact hc hh.symm
        · exact hl hh

theorem wellFormedEntry_append_line (l1 e2 : List Char) (hl : '\n' ∉ l1) :
    wellFormedEntry (l1 ++ '\n' :: e2) = (hasNonWsp l1 && wellFormedEntry e2) := by
  unfold wellFormedEntry
  rw [splitChar_append_sep '\n' l1 e2 hl]
  simp [List.all_cons, wellFormedEntry]

/-! ## Splitting a serialized fragment -/

theorem findSep_entry (n : Nat) : ∀ e rest, e.length ≤ n → wellFormedEntry e = true →
    '\n' ∉ rest.takeWhile isWsp →
    findSep (e ++ '\n' :: '\n' :: rest) = some (e, rest) := by
  induction n with
  | zero =>
    intro e rest hlen hwf _
    have : e = [] := List.length_eq_zero.mp (Nat.le_zero.mp hlen)
    subst this
    exact absurd hwf (by decide)
  | succ n ih =>
    intro e rest hlen hwf hrest
    rcases line_decomp e with hnl | ⟨l1, e2, he, hl1⟩
    · rw [findSep_append_noNl e _ hnl, findSep_sep rest hrest]
      simp
    · subst he
      rw [wellFormedEntry_append_line l1 e2 hl1] at hwf
      have h1 : hasNonWsp l1 = true := (Bool.and_eq_true_iff.mp hwf).1
      have hwf2 : wellFormedEntry e2 = true := (Bool.and_eq_true_iff.mp hwf).2
      have hlen2 : e2.length ≤ n := by
        rw [List.length_append, List.length_cons] at hlen
        omega
      have hassoc : (l1 ++ '\n' :: e2) ++ '\n' :: '\n' :: rest
          = l1 ++ '\n' :: (e2 ++ '\n' :: '\n' :: rest) := by simp
      rw [hassoc, findSep_append_noNl l1 _ hl1,
        findSep_cons_nl _ (noNl_takeWhile_append e2 _ hwf2),
        ih e2 rest hlen2 hwf2 hrest]
      simp

theorem findSep_entry_tail (n : Nat) : ∀ e, e.length ≤ n → wellFormedEntry e = true →
    findSep (e ++ ['\n']) = none := by
  induction n with
  | zero =>
    intro e hlen hwf
    have : e = [] := List.length_eq_zero.mp (Nat.le_zero.mp hlen)
    subst this
    exact absurd hwf (by decide)
  | succ n ih =>
    intro e hlen hwf
    rcases line_decomp e with hnl | ⟨l1, e2, he, hl1⟩
    · rw [findSep_append_noNl e _ hnl]
      have hend : findSep ['\n'] = none := by decide
      rw [hend]
      rfl
    · subst he
      rw [wellFormedEntry_append_line l1 e2 hl1] at hwf
      have hwf2 : wellFormedEntry e2 = true := (Bool.and_eq_true_iff.mp hwf).2
      have hlen2 : e2.length ≤ n := by
        rw [List.length_append, List.length_cons] at hlen
        omega
      have hassoc : (l1 ++ '\n' :: e2) ++ ['\n'] = l1 ++ '\n' :: (e2 ++ ['\n']) := by simp
      rw [hassoc, findSep_append_noNl l1 _ hl1,
        findSep_cons_nl _ (noNl_takeWhile_append e2 _ hwf2),
        ih e2 hlen2 hwf2]
      rfl

theorem serializeFragment_cons_head (e : List Char) (es : List (List Char)) :
    ∃ x, serializeFragment (e :: es) = e ++ x := by
  cases es with
  | nil => exact ⟨['\n'], rfl⟩
  | cons f t =>
    refine ⟨'\n' :: '\n' :: (jsJoin ['\n', '\n'] (f :: t) ++ ['\n']), ?_⟩
    simp [serializeFragment, jsJoin]

theorem serializeFragment_cons_cons (e f : List Char) (t : List (List Char)) :
    serializeFragment (e :: f :: t) = e ++ '\n' :: '\n' :: serializeFragment (f :: t) := by
  simp [serializeFragment, jsJoin]

theorem jsSplitBlank_serialize : ∀ (es : List (List Char)) (hne : es ≠ []),
    (∀ e ∈ es, wellFormedEntry e = true) →
    jsSplitBlank (serializeFragment es) = es.dropLast ++ [es.getLast hne ++ ['\n']] := by
  intro es
  induction es with
  | nil => intro hne _; exact absurd rfl hne
  | cons e es' ih =>
    intro hne hwf
    cases es' with
    | nil =>
      have hwe : wellFormedEntry e = true := hwf e (by simp)
      rw [jsSplitBlank_eq]
      have hser : serializeFragment [e] = e ++ ['\n'] := rfl
      rw [hser, findSep_entry_tail e.length e (le_refl _) hwe]
      simp
    | cons f t =>
      have hwe : wellFormedEntry e = true := hwf e (by simp)
      have hwf' : ∀ x ∈ f :: t, wellFormedEntry x = true := fun x hx => hwf x (by simp [hx])
      rw [jsSplitBlank_eq, serializeFragment_cons_cons]
      obtain ⟨x, hx⟩ := serializeFragment_cons_head f t
      have hrest : '\n' ∉ (serializeFragment (f :: t)).takeWhile isWsp := by
        rw [hx]
        exact noNl_takeWhile_append f x (hwf' f (by simp))
      rw [findSep_entry e.length e _ (le_refl _) hwe hrest]
      show e :: jsSplitBlank (serializeFragment (f :: t)) = _
      rw [ih (by simp) hwf']
      have hd : (e :: f :: t).dropLast = e :: (f :: t).dropLast :=
        List.dropLast_cons_of_ne_nil (by simp)
      have hg : (e :: f :: t).getLast hne = (f :: t).getLast (by simp) :=
        List.getLast_cons (by simp)
      rw [hd, hg]
      simp

theorem hasNonWsp_append_left (l x : List Char) (h : hasNonWsp l = true) :
    hasNonWsp (l ++ x) = true := by
  simp only [hasNonWsp, List.any_append, Bool.or_eq_true]
  simp only [hasNonWsp] at h
  exact Or.inl h

theorem parseBlocks_serialize (es : List (List Char)) (hne : es ≠ [])
    (hwf : ∀ e ∈ es, wellFormedEntry e = true) :
    parseBlocks (serializeFragment es) = es.dropLast ++ [es.getLast hne ++ ['\n']] := by
  unfold parseBlocks
  rw [jsSplitBlank_serialize es hne hwf, List.filter_append]
  have h1 : es.dropLast.filter hasNonWsp = es.dropLast := by
    apply List.filter_eq_self.mpr
    intro a ha
    exact hasNonWsp_of_wellFormed a (hwf a (List.dropLast_subset es ha))
  have h2 : [es.getLast hne ++ ['\n']].filter hasNonWsp = [es.getLast hne ++ ['\n']] := by
    apply List.filter_eq_self.mpr
    intro a ha
    rw [List.mem_singleton.mp ha]
    exact hasNonWsp_append_left _ _
      (hasNonWsp_of_wellFormed _ (hwf _ (List.getLast_mem hne)))
  rw [h1, h2]

theorem splitChar_append_last_sep (sep : Char) (l : List Char) :
    splitChar sep (l ++ [sep]) = splitChar sep l ++ [[]] := by
  induction l with
  | nil => simp [splitChar]
  | cons c l' ih =>
    by_cases hc : (c == sep) = true
    · simp only [List.cons_append, splitChar, hc, if_true, List.append_eq, ih]
    · simp only [List.cons_append, splitChar, hc, Bool.false_eq_true, if_false,
        List.append_eq]
      cases h2 : splitChar sep l' with
      | nil => exact absurd h2 (splitChar_ne_nil _ _)
      | cons b bs =>
        rw [h2] at ih
        simp only [List.cons_append] at ih
        rw [ih]
        simp

theorem entryFields_append_nl (e : List Char) :
    entryFields (e ++ ['\n']) = entryFields e := by
  unfold entryFields
  rw [splitChar_append_last_sep, List.filterMap_append]
  simp [lineField]

/-! ## Claim C4: the control-file codec round-trips well-formed entries -/

/-- Claim C4: serializing well-formed entry blocks by joining them with one
blank line and a trailing newline, then parsing the result by splitting on
blank-line boundaries and discarding empty blocks, reproduces the same
entries with the same field and value pairs. -/
theorem parse_serialize_roundtrip (es : List (List Char)) (hne : es ≠ [])
    (hwf : ∀ e ∈ es, wellFormedEntry e = true) :
    (parseBlocks (serializeFragment es)).map entryFields = es.map entryFields := by
  rw [parseBlocks_serialize es hne hwf]
  conv_rhs => rw [← List.dropLast_append_getLast hne]
  rw [List.map_append, List.map_append]
  simp [entryFields_append_nl]

/-- Witness for claim C4 at a two-entry fragment. -/
theorem parse_serialize_roundtrip_witness :
    (parseBlocks (serializeFragment
        [("Package: a").toList, ("Package: b\nSHA256: x").toList])).map entryFields
      = [("Package: a").toList, ("Package: b\nSHA256: x").toList].map entryFields :=
  parse_serialize_roundtrip _ (by decide) (by decide)

/-! ## The JavaScript Map model -/

theorem mapGet_cons (p : List Char × List Char) (m : List (List Char × List Char))
    (k : List Char) :
    mapGet (p :: m) k = if (p.1 == k) = true then some p.2 else mapGet m k := by
  unfold mapGet
  rw [List.find?_cons]
  by_cases hp : (p.1 == k) = true
  · simp [hp]
  · simp [hp]

theorem mapSet_cons_ne (p : List Char × List Char) (m' : List (List Char × List Char))
    (k v : List Char) (hp : ¬(p.1 == k) = true) :
    mapSet (p :: m') k v = p :: mapSet m' k v := by
  unfold mapSet
  by_cases h2 : m'.any (fun q => q.1 == k) = true
  · have hany : (p :: m').any (fun q => q.1 == k) = true := by
      simp [List.any_cons, h2]
    rw [if_pos hany, if_pos h2, List.map_cons, if_neg hp]
  · have hany : ¬ (p :: m').any (fun q => q.1 == k) = true := by
      simp only [List.any_cons, Bool.or_eq_true]
      intro hor
      rcases hor with h | h
      · exact hp h
      · exact h2 h
    rw [if_neg hany, if_neg h2, List.cons_append]

theorem mapGet_set_self (m : List (List Char × List Char)) (k v : List Char) :
    mapGet (mapSet m k v) k = some v := by
  induction m with
  | nil =>
    simp [mapSet, mapGet, List.find?]
  | cons p m' ih =>
    by_cases hp : (p.1 == k) = true
    · have hany : (p :: m').any (fun q => q.1 == k) = true := by
        simp [List.any_cons, hp]
      unfold mapSet
      rw [if_pos hany, List.map_cons, if_pos hp, mapGet_cons]
      simp
    · rw [mapSet_cons_ne p m' k v hp, mapGet_cons, if_neg hp]
      exact ih

theorem mapGet_map_replace_ne (m : List (List Char × List Char)) (k v k' : List Char)
    (hne : ¬(k == k') = true) :
    mapGet (m.map (fun p => if p.1 == k then (k, v) else p)) k' = mapGet m k' := by
  induction m with
  | nil => rfl
  | cons q m' ih =>
    rw [List.map_cons]
    by_cases hq : (q.1 == k) = true
    · rw [if_pos hq, mapGet_cons, mapGet_cons]
      have hk : ¬((k, v).1 == k') = true := hne
      rw [if_neg hk]
      have hq' : ¬(q.1 == k') = true := by
        intro h
        have h1 : q.1 = k := by simpa using hq
        have h2 : q.1 = k' := by simpa using h
        exact hne (by simp [← h1, h2])
      rw [if_neg hq']
      exact ih
    · rw [if_neg hq, mapGet_cons, mapGet_cons]
      by_cases hq' : (q.1 == k') = true
      · rw [if_pos hq', if_pos hq']
      · rw [if_neg hq', if_neg hq']
        exact ih

theorem mapGet_set_ne (m : List (List Char × List Char)) (k v k' : List Char)
    (hne : ¬(k == k') = true) :
    mapGet (mapSet m k v) k' = mapGet m k' := by
  unfold mapSet
  by_cases h : m.any (fun p => p.1 == k) = true
  · rw [if_pos h]
    exact mapGet_map_replace_ne m k v k' hne
  · rw [if_neg h]
    induction m with
    | nil =>
      rw [List.nil_append, mapGet_cons, if_neg hne]
    | cons q m' ih =>
      rw [List.cons_append, mapGet_cons, mapGet_cons]
      by_cases hq : (q.1 == k') = true
      · rw [if_pos hq, if_pos hq]
      · rw [if_neg hq, if_neg hq]
        exact ih (by
          intro h2
          exact h (by simp [List.any_cons, h2]))

/-! ## Claim C3: last occurrence wins at both levels -/

theorem isPrefixOf_append_self (p t : List Char) : p.isPrefixOf (p ++ t) = true := by
  induction p with
  | nil => simp [List.isPrefixOf]
  | cons a as ih => simp [List.isPrefixOf, ih]

theorem filename_not_prefix_sha (v : List Char) :
    (("Filename:").toList).isPrefixOf ((("SHA256:").toList) ++ v) = false := by
  have h1 : ("Filename:").toList = 'F' :: ("ilename:").toList := rfl
  have h2 : (("SHA256:").toList) ++ v = 'S' :: (("HA256:").toList ++ v) := rfl
  rw [h1, h2]
  simp [List.isPrefixOf]

theorem scanLine_sha (st : Option (List Char) × Option (List Char)) (v : List Char) :
    scanPackagesLine st ((("SHA256:").toList) ++ v) = (st.1, some (jsTrim v)) := by
  unfold scanPackagesLine
  rw [if_neg (by simp [filename_not_prefix_sha v]),
    if_pos (isPrefixOf_append_self _ v), List.drop_left]

theorem scan_no_sha_snd (L : List (List Char)) :
    ∀ st, (∀ l ∈ L, ¬ (("SHA256:").toList).isPrefixOf l = true) →
    (L.foldl scanPackagesLine st).2 = st.2 := by
  induction L with
  | nil => intro st _; rfl
  | cons l L' ih =>
    intro st h
    have hl := h l (by simp)
    rw [List.foldl_cons, ih _ (fun x hx => h x (by simp [hx]))]
    unfold scanPackagesLine
    by_cases hf : ((("Filename:").toList).isPrefixOf l) = true
    · rw [if_pos hf]
    · rw [if_neg hf, if_neg hl]

theorem indexInsert_eq (m : List (List Char × List Char)) (entry : List Char) :
    indexInsert m entry = (match scanPackagesEntry entry with
      | (some f, some s) => if (!f.isEmpty && !s.isEmpty) = true then mapSet m f s else m
      | _ => m) := rfl

theorem indexInsert_set (m : List (List Char × List Char)) (b f s : List Char)
    (hb : scanPackagesEntry b = (some f, some s)) (hf : f ≠ []) (hs : s ≠ []) :
    indexInsert m b = mapSet m f s := by
  rw [indexInsert_eq, hb]
  have h1 : f.isEmpty = false := by
    cases f with
    | nil => exact absurd rfl hf
    | cons a b => rfl
  have h2 : s.isEmpty = false := by
    cases s with
    | nil => exact absurd rfl hs
    | cons a b => rfl
  show (if (!f.isEmpty && !s.isEmpty) = true then mapSet m f s else m) = mapSet m f s
  rw [if_pos (by rw [h1, h2]; rfl)]

theorem indexInsert_get_untouched (m : List (List Char × List Char))
    (entry f : List Char) (h : entrySetsKey entry f = false) :
    mapGet (indexInsert m entry) f = mapGet m f := by
  rw [indexInsert_eq]
  unfold entrySetsKey at h
  cases hscan : scanPackagesEntry entry with
  | mk o1 o2 =>
    rw [hscan] at h
    cases o1 with
    | none => rfl
    | some f' =>
      cases o2 with
      | none => rfl
      | some s' =>
        show mapGet (if (!f'.isEmpty && !s'.isEmpty) = true then mapSet m f' s' else m) f
            = mapGet m f
        by_cases htr : (!f'.isEmpty && !s'.isEmpty) = true
        · rw [if_pos htr]
          have hne : ¬(f' == f) = true := by
            intro heq
            rw [Bool.and_eq_true_iff] at htr
            simp only [htr.1, htr.2, heq] at h
            simp at h
          exact mapGet_set_ne m f' s' f hne
        · rw [if_neg htr]

theorem foldl_index_untouched (S : List (List Char)) :
    ∀ m (f : List Char), (∀ b ∈ S, entrySetsKey b f = false) →
    mapGet (S.foldl indexInsert m) f = mapGet m f := by
  induction S with
  | nil => intro m f _; rfl
  | cons b S' ih =>
    intro m f h
    rw [List.foldl_cons, ih _ f (fun x hx => h x (by simp [hx])),
      indexInsert_get_untouched m b f (h b (by simp))]

/-- Claim C3: the checksum index obeys last-occurrence-wins at both levels.
Within one entry, when the lines contain two SHA256 lines and none after the
second, the scanned digest is the value of the second line; across entries,
when the parsed blocks contain two entries storing the same filename and no
later block stores that filename, the index built from the fragment maps the
filename to the digest of the second of the two entries. -/
theorem checksum_index_last_wins :
    (∀ (A B C : List (List Char)) (v1 v2 e : List Char),
      splitChar '\n' e
          = A ++ ((("SHA256:").toList) ++ v1) :: B ++ ((("SHA256:").toList) ++ v2) :: C →
      (∀ l ∈ C, (("SHA256:").toList).isPrefixOf l = false) →
      (scanPackagesEntry e).2 = some (jsTrim v2)) ∧
    (∀ (content : List Char) (P M S : List (List Char)) (b1 b2 f s1 s2 : List Char),
      parseBlocks content = P ++ b1 :: M ++ b2 :: S →
      scanPackagesEntry b1 = (some f, some s1) → s1 ≠ [] →
      scanPackagesEntry b2 = (some f, some s2) → s2 ≠ [] → f ≠ [] →
      (∀ b ∈ S, entrySetsKey b f = false) →
      mapGet (parsePackagesContent content) f = some s2) := by
  constructor
  · intro A B C v1 v2 e hsp hC
    unfold scanPackagesEntry
    rw [hsp, List.foldl_append, List.foldl_cons, List.foldl_append, List.foldl_cons]
    rw [scan_no_sha_snd C _ (fun l hl => by
      intro hcontra
      rw [hC l hl] at hcontra
      exact Bool.false_ne_true hcontra), scanLine_sha]
  · intro content P M S b1 b2 f s1 s2 hps hb1 hs1 hb2 hs2 hf hS
    have hpc : parsePackagesContent content = (parseBlocks content).foldl indexInsert [] :=
      rfl
    rw [hpc, hps, List.foldl_append, List.foldl_cons, List.foldl_append, List.foldl_cons]
    rw [foldl_index_untouched S _ f hS,
      indexInsert_set _ b2 f s2 hb2 hf hs2, mapGet_set_self]

/-- Witness for claim C3: an entry with two SHA256 lines yields the second
value, and a fragment with two entries for one filename maps it to the
second digest. -/
theorem checksum_index_last_wins_witness :
    (scanPackagesEntry (("Filename: a\nSHA256: v1\nSHA256: v2").toList)).2
        = some ((" v2").toList |> jsTrim) ∧
    mapGet (parsePackagesContent
        (("Filename: f.deb\nSHA256: a\n\nFilename: f.deb\nSHA256: b\n").toList))
        (("f.deb").toList)
        = some (("b").toList) := by
  constructor
  · exact checksum_index_last_wins.1 [("Filename: a").toList] [] []
      ((" v1").toList) ((" v2").toList) _ (by decide) (by decide)
  · exact checksum_index_last_wins.2
      (("Filename: f.deb\nSHA256: a\n\nFilename: f.deb\nSHA256: b\n").toList)
      [] [] [] (("Filename: f.deb\nSHA256: a").toList)
      (("Filename: f.deb\nSHA256: b\n").toList)
      (("f.deb").toList) (("a").toList) (("b").toList)
      (by decide) (by decide) (by decide) (by decide) (by decide) (by decide)
      (by decide)

/-! ## Claims C1, C9, C6: the sync planner -/

theorem categorize_eq_filter (assets : List Asset) (m : List (List Char × List Char))
    (dir : List Char) (fs : List Char → Bool) :
    categorizeAssetsByChecksum assets m dir fs
      = ((assets.filter (fun a => !(shouldSkipAsset m dir fs a))).map
           (fun a => (a, pathJoin dir a.name)),
         (assets.filter (shouldSkipAsset m dir fs)).map
           (fun a => (a, pathJoin dir a.name))) := by
  induction assets with
  | nil => rfl
  | cons a rest ih =>
    simp only [categorizeAssetsByChecksum, ih, List.filter_cons]
    by_cases h : shouldSkipAsset m dir fs a = true
    · simp [h]
    · simp [h]

theorem extractAssetSHA256_eq_def (a : Asset) :
    extractAssetSHA256 a = (match a.digest with
      | some d =>
        if (("sha256:").toList).isPrefixOf d then
          some (d.drop (("sha256:").toList).length)
        else none
      | none => none) := rfl

theorem extractAssetSHA256_eq_some (a : Asset) (s : List Char) :
    extractAssetSHA256 a = some s ↔ a.digest = some ((("sha256:").toList) ++ s) := by
  rw [extractAssetSHA256_eq_def]
  cases hd : a.digest with
  | none => simp
  | some d =>
    show (if (("sha256:").toList).isPrefixOf d = true then
        some (d.drop (("sha256:").toList).length) else none) = some s ↔ _
    by_cases hp : ((("sha256:").toList).isPrefixOf d) = true
    · rw [if_pos hp]
      obtain ⟨t, ht⟩ := List.isPrefixOf_iff_prefix.mp hp
      constructor
      · intro h
        have hs : d.drop (("sha256:").toList).length = s := Option.some.inj h
        rw [← ht] at hs
        rw [List.drop_left] at hs
        simp [← ht, hs]
      · intro h
        have hds : d = (("sha256:").toList) ++ s := Option.some.inj h
        rw [hds, List.drop_left]
    · rw [if_neg hp]
      constructor
      · intro h
        exact absurd h (by simp)
      · intro h
        have hds : d = (("sha256:").toList) ++ s := Option.some.inj h
        rw [hds] at hp
        exact absurd (isPrefixOf_append_self _ s) hp

theorem toLowerL_ne_nil (l : List Char) (h : l ≠ []) : toLowerL l ≠ [] := by
  cases l with
  | nil => exact absurd rfl h
  | cons a as => simp [toLowerL]

theorem shouldSkipAsset_eq_def (m : List (List Char × List Char)) (dir : List Char)
    (fs : List Char → Bool) (a : Asset) :
    shouldSkipAsset m dir fs a = (match mapGet m a.name, extractAssetSHA256 a with
      | some e, some s =>
        !e.isEmpty && !s.isEmpty && (toLowerL e == toLowerL s) &&
          fs (pathJoin dir a.name)
      | _, _ => false) := rfl

/-- Claim C1: categorizeAssetsByChecksum sends every asset to the skip list
exactly when the index records a digest for its name, the asset digest has
the lowercase sha256 tag with a nonempty hex payload, recorded and asset hex
agree case-insensitively, and a file exists at the target path; every other
asset goes, in order, to the download list. -/
theorem categorize_skip_iff (assets : List Asset) (m : List (List Char × List Char))
    (dir : List Char) (fs : List Char → Bool) :
    categorizeAssetsByChecksum assets m dir fs
      = ((assets.filter (fun a => !(shouldSkipAsset m dir fs a))).map
           (fun a => (a, pathJoin dir a.name)),
         (assets.filter (shouldSkipAsset m dir fs)).map
           (fun a => (a, pathJoin dir a.name))) ∧
    ∀ a : Asset, shouldSkipAsset m dir fs a = true ↔
      ((∃ e, mapGet m a.name = some e ∧
          ∃ h, a.digest = some ((("sha256:").toList) ++ h) ∧ h ≠ [] ∧
            toLowerL e = toLowerL h) ∧
        fs (pathJoin dir a.name) = true) := by
  refine ⟨categorize_eq_filter assets m dir fs, ?_⟩
  intro a
  rw [shouldSkipAsset_eq_def]
  cases hm : mapGet m a.name with
  | none => simp
  | some e =>
    cases hx : extractAssetSHA256 a with
    | none =>
      refine iff_of_false (by simp) ?_
      rintro ⟨⟨e', he', h, hd, hne, hlow⟩, hfs⟩
      have : extractAssetSHA256 a = some h := (extractAssetSHA256_eq_some a h).mpr hd
      rw [hx] at this
      exact absurd this (by simp)
    | some s =>
      show (!e.isEmpty && !s.isEmpty && (toLowerL e == toLowerL s) &&
          fs (pathJoin dir a.name)) = true ↔ _
      constructor
      · intro h
        simp only [Bool.and_eq_true_iff] at h
        obtain ⟨⟨⟨hee, hse⟩, hlow⟩, hfs⟩ := h
        refine ⟨⟨e, rfl, s, (extractAssetSHA256_eq_some a s).mp hx, ?_, ?_⟩, hfs⟩
        · intro hnil
          rw [hnil] at hse
          exact absurd hse (by simp)
        · simpa using hlow
      · rintro ⟨⟨e', he', h, hd, hne, hlow⟩, hfs⟩
        have he : e = e' := Option.some.inj he'
        subst he
        have hxs : extractAssetSHA256 a = some h := (extractAssetSHA256_eq_some a h).mpr hd
        rw [hx] at hxs
        have hsh : s = h := Option.some.inj hxs
        subst hsh
        have hse : s ≠ [] := hne
        have hee : e ≠ [] := by
          intro hnil
          rw [hnil] at hlow
          exact absurd hlow.symm (by simpa [toLowerL] using toLowerL_ne_nil s hse)
        simp only [Bool.and_eq_true_iff]
        refine ⟨⟨⟨?_, ?_⟩, by simp [hlow]⟩, hfs⟩
        · cases e with
          | nil => exact absurd rfl hee
          | cons c cs => rfl
        · cases s with
          | nil => exact absurd rfl hse
          | cons c cs => rfl

/-- Claim C9: an absent digest, a digest that is exactly the bare sha256 tag,
or a digest not starting with the lowercase sha256 tag yields no usable
digest, and such an asset is always placed in the download list. -/
theorem bad_digest_always_download (m : List (List Char × List Char)) (dir : List Char)
    (fs : List Char → Bool) (a : Asset)
    (h : a.digest = none ∨ a.digest = some (("sha256:").toList) ∨
      ∃ d, a.digest = some d ∧ ((("sha256:").toList).isPrefixOf d) = false) :
    (extractAssetSHA256 a = none ∨ extractAssetSHA256 a = some []) ∧
    shouldSkipAsset m dir fs a = false ∧
    ∀ assets : List Asset, a ∈ assets →
      (a, pathJoin dir a.name) ∈ (categorizeAssetsByChecksum assets m dir fs).1 := by
  have hex : extractAssetSHA256 a = none ∨ extractAssetSHA256 a = some [] := by
    rcases h with h | h | ⟨d, hd, hp⟩
    · left
      rw [extractAssetSHA256_eq_def, h]
    · right
      apply (extractAssetSHA256_eq_some a []).mpr
      rw [h, List.append_nil]
    · left
      rw [extractAssetSHA256_eq_def, hd]
      show (if (("sha256:").toList).isPrefixOf d = true then
          some (d.drop (("sha256:").toList).length) else none) = none
      have hnp : ¬ ((("sha256:").toList).isPrefixOf d) = true := by
        rw [hp]
        exact Bool.false_ne_true
      rw [if_neg hnp]
  have hss : shouldSkipAsset m dir fs a = false := by
    rw [shouldSkipAsset_eq_def]
    cases hm : mapGet m a.name with
    | none => rfl
    | some e =>
      rcases hex with hx | hx
      · rw [hx]
      · rw [hx]
        show (!e.isEmpty && !(List.isEmpty []) && _ && _) = false
        simp
  refine ⟨hex, hss, ?_⟩
  intro assets ha
  rw [categorize_eq_filter]
  exact List.mem_map.mpr ⟨a, List.mem_filter.mpr ⟨ha, by rw [hss]; rfl⟩, rfl⟩

/-- Witness for claim C9 at an asset whose digest tag is uppercase. -/
theorem bad_digest_always_download_witness :
    shouldSkipAsset [] (("out").toList) (fun _ => true)
        (Asset.mk (("x.deb").toList) (some (("SHA256:abc").toList))) = false ∧
    (Asset.mk (("x.deb").toList) (some (("SHA256:abc").toList)),
        pathJoin (("out").toList) (("x.deb").toList)) ∈
      (categorizeAssetsByChecksum [Asset.mk (("x.deb").toList)
        (some (("SHA256:abc").toList))] [] (("out").toList) (fun _ => true)).1 := by
  have h := bad_digest_always_download [] (("out").toList) (fun _ => true)
    (Asset.mk (("x.deb").toList) (some (("SHA256:abc").toList)))
    (Or.inr (Or.inr ⟨(("SHA256:abc").toList), rfl, by decide⟩))
  exact ⟨h.2.1, h.2.2 _ (by simp)⟩

/-- Counterexample to claim C6: with a first asset that must be downloaded
and a second asset that is skipped, downloadDebAssets returns the skipped
path before the downloaded one, so the returned list is not in input asset
order. -/
theorem downloadDebAssets_order_counterexample :
    downloadDebAssets
        (Release.mk (("v1").toList)
          [Asset.mk (("a.deb").toList) none,
           Asset.mk (("b.deb").toList) (some (("sha256:aa").toList))])
        (("o").toList) (("r").toList) (("out").toList)
        (fun p =>
          if p = ("out/pool/o/r/v1/Packages").toList then
            some (("Filename: ./pool/o/r/v1/b.deb\nSHA256: aa\n").toList)
          else if p = ("out/pool/o/r/v1/b.deb").toList then some (("x").toList)
          else none)
      = [("out/pool/o/r/v1/b.deb").toList, ("out/pool/o/r/v1/a.deb").toList] ∧
    (filterDebAssets (Release.mk (("v1").toList)
          [Asset.mk (("a.deb").toList) none,
           Asset.mk (("b.deb").toList) (some (("sha256:aa").toList))])).map
        (fun a => pathJoin (("out/pool/o/r/v1").toList) a.name)
      = [("out/pool/o/r/v1/a.deb").toList, ("out/pool/o/r/v1/b.deb").toList] ∧
    [("out/pool/o/r/v1/b.deb").toList, ("out/pool/o/r/v1/a.deb").toList]
      ≠ [("out/pool/o/r/v1/a.deb").toList, ("out/pool/o/r/v1/b.deb").toList] := by
  refine ⟨by decide, by decide, by decide⟩

/-- Amended claim C6: the path list returned by downloadDebAssets is the
skipped assets' paths in asset order followed by the downloaded assets'
paths in asset order; it equals input asset order only when no downloaded
asset precedes a skipped one. -/
theorem downloadDebAssets_skipped_then_downloaded (release : Release)
    (owner repo outputDir : List Char) (fsContents : List Char → Option (List Char)) :
    downloadDebAssets release owner repo outputDir fsContents =
      (let dir := pathJoin (pathJoin (pathJoin (pathJoin outputDir (("pool").toList))
        owner) repo) release.tag_name
      let idx := parsePackagesFile Unit
        (fun p => match fsContents p with
          | some c => Except.ok c
          | none => Except.error ()) (pathJoin dir (("Packages").toList))
      let fsEx := fun p => (fsContents p).isSome
      ((filterDebAssets release).filter (shouldSkipAsset idx dir fsEx)).map
          (fun a => pathJoin dir a.name)
        ++ ((filterDebAssets release).filter
            (fun a => !(shouldSkipAsset idx dir fsEx a))).map
          (fun a => pathJoin dir a.name)) := by
  unfold downloadDebAssets
  simp only [categorize_eq_filter, List.map_map]
  rfl

/-! ## Claims C5, C7: architecture grouping and the assemble operation -/

theorem insertEntry_keys (m : List (List Char × List (List Char))) (arch entry : List Char) :
    (insertEntry m arch entry).map Prod.fst = dedupStep (m.map Prod.fst) arch := by
  unfold insertEntry dedupStep
  by_cases h : m.any (fun p => p.1 == arch) = true
  · have h2 : (m.map Prod.fst).any (fun x => x == arch) = true := by
      simpa [List.any_map, Function.comp] using h
    rw [if_pos h, if_pos h2, List.map_map]
    apply List.map_congr_left
    intro p _
    by_cases hp : (p.1 == arch) = true
    · simp [Function.comp, hp]
    · simp [Function.comp, hp]
  · have h2 : ¬ (m.map Prod.fst).any (fun x => x == arch) = true := by
      intro hc
      exact h (by simpa [List.any_map, Function.comp] using hc)
    rw [if_neg h, if_neg h2, List.map_append]
    rfl

theorem foldl_insert_keys (pairs : List (List Char × List Char)) :
    ∀ m, ((pairs.foldl (fun m p => insertEntry m p.1 p.2) m).map Prod.fst)
      = (pairs.map Prod.fst).foldl dedupStep (m.map Prod.fst) := by
  induction pairs with
  | nil => intro m; rfl
  | cons p ps ih =>
    intro m
    rw [List.foldl_cons, List.map_cons, List.foldl_cons, ih, insertEntry_keys]

theorem foldl_append_acc {α : Type} (g : α → List (List Char)) (fs : List α) :
    ∀ acc, fs.foldl (fun acc f => acc ++ g f) acc
      = acc ++ fs.foldl (fun acc f => acc ++ g f) [] := by
  induction fs with
  | nil => intro acc; simp
  | cons f fs' ih =>
    intro acc
    rw [List.foldl_cons, List.foldl_cons, ih, List.nil_append,
      ih (g f), List.append_assoc]

theorem scannedArchs_cons (f : List Char) (fs : List (List Char)) :
    scannedArchs (f :: fs)
      = (extractEntriesByArchitecture f).map Prod.fst ++ scannedArchs fs := by
  unfold scannedArchs
  rw [List.foldl_cons, List.nil_append, foldl_append_acc]

theorem group_keys_gen (fragments : List (List Char)) :
    ∀ m, ((fragments.foldl (fun m content =>
        (extractEntriesByArchitecture content).foldl (fun m p => insertEntry m p.1 p.2) m)
          m).map Prod.fst)
      = (scannedArchs fragments).foldl dedupStep (m.map Prod.fst) := by
  induction fragments with
  | nil => intro m; rfl
  | cons f fs ih =>
    intro m
    rw [List.foldl_cons, ih, foldl_insert_keys, scannedArchs_cons, List.foldl_append]

theorem groupByArchitecture_keys (fragments : List (List Char)) :
    (groupByArchitecture fragments).map Prod.fst = dedupFirst (scannedArchs fragments) := by
  unfold groupByArchitecture dedupFirst
  rw [group_keys_gen fragments []]
  rfl

theorem foldl_dedup_extends (l : List (List Char)) :
    ∀ acc, ∃ t, l.foldl dedupStep acc = acc ++ t := by
  induction l with
  | nil => intro acc; exact ⟨[], by simp⟩
  | cons a l' ih =>
    intro acc
    unfold dedupStep
    by_cases h : acc.any (fun x => x == a) = true
    · rw [List.foldl_cons]
      show ∃ t, l'.foldl dedupStep (dedupStep acc a) = acc ++ t
      rw [show dedupStep acc a = acc from by unfold dedupStep; rw [if_pos h]]
      exact ih acc
    · rw [List.foldl_cons]
      show ∃ t, l'.foldl dedupStep (dedupStep acc a) = acc ++ t
      rw [show dedupStep acc a = acc ++ [a] from by unfold dedupStep; rw [if_neg h]]
      obtain ⟨t, ht⟩ := ih (acc ++ [a])
      exact ⟨[a] ++ t, by rw [ht, List.append_assoc]⟩

theorem dedupFirst_eq_nil_iff (l : List (List Char)) : dedupFirst l = [] ↔ l = [] := by
  constructor
  · intro h
    cases l with
    | nil => rfl
    | cons a l' =>
      unfold dedupFirst at h
      rw [List.foldl_cons] at h
      have hstep : dedupStep [] a = [a] := rfl
      rw [hstep] at h
      obtain ⟨t, ht⟩ := foldl_dedup_extends l' [a]
      rw [ht] at h
      exact absurd h (by simp)
  · intro h
    subst h
    rfl

theorem scannedArchs_eq_nil_iff (fragments : List (List Char)) :
    scannedArchs fragments = [] ↔
      ∀ f ∈ fragments, extractEntriesByArchitecture f = [] := by
  induction fragments with
  | nil => simp [scannedArchs]
  | cons f fs ih =>
    rw [scannedArchs_cons]
    constructor
    · intro h
      have h1 : (extractEntriesByArchitecture f).map Prod.fst = [] :=
        (List.append_eq_nil.mp h).1
      have h2 : scannedArchs fs = [] := (List.append_eq_nil.mp h).2
      intro x hx
      rcases List.mem_cons.mp hx with hh | hh
      · subst hh
        exact List.map_eq_nil_iff.mp h1
      · exact ih.mp h2 x hh
    · intro h
      rw [h f (by simp), ih.mpr (fun x hx => h x (by simp [hx]))]
      rfl

theorem groupByArchitecture_eq_nil_iff (fragments : List (List Char)) :
    groupByArchitecture fragments = [] ↔
      ∀ f ∈ fragments, extractEntriesByArchitecture f = [] := by
  constructor
  · intro h
    apply (scannedArchs_eq_nil_iff fragments).mp
    apply (dedupFirst_eq_nil_iff _).mp
    rw [← groupByArchitecture_keys, h]
    rfl
  · intro h
    have : (groupByArchitecture fragments).map Prod.fst = [] := by
      rw [groupByArchitecture_keys]
      rw [(dedupFirst_eq_nil_iff _).mpr ((scannedArchs_eq_nil_iff fragments).mpr h)]
    exact List.map_eq_nil_iff.mp this

theorem assembleAction_eq_def (fragments : List (List Char)) :
    assembleAction fragments =
      (if fragments.isEmpty then Except.error (("No Packages files found").toList)
      else if (groupByArchitecture fragments).isEmpty then
        Except.error (("No package entries with Architecture field found").toList)
      else Except.ok
        { perArch := (groupByArchitecture fragments).map
            (fun p => (p.1, serializeFragment p.2)),
          releaseArchitectures := (groupByArchitecture fragments).map (fun p => p.1) }) :=
  rfl

/-- Claim C7: the assemble operation fails exactly when there are no
fragments or no entry of any fragment carries an Architecture field, and a
successful run never has an empty architecture map. -/
theorem assemble_empty_rejection (fragments : List (List Char)) :
    ((∃ msg, assembleAction fragments = Except.error msg) ↔
      (fragments = [] ∨ ∀ f ∈ fragments, extractEntriesByArchitecture f = [])) ∧
    (∀ out, assembleAction fragments = Except.ok out →
      out.perArch ≠ [] ∧ out.releaseArchitectures ≠ []) := by
  rw [assembleAction_eq_def]
  by_cases h1 : fragments.isEmpty = true
  · rw [if_pos h1]
    have hf : fragments = [] := by
      cases fragments with
      | nil => rfl
      | cons a l => exact absurd h1 (by simp)
    constructor
    · exact ⟨fun _ => Or.inl hf, fun _ => ⟨_, rfl⟩⟩
    · intro out hout
      exact absurd hout (by simp)
  · rw [if_neg h1]
    have hf : fragments ≠ [] := by
      intro h
      subst h
      exact h1 rfl
    by_cases h2 : (groupByArchitecture fragments).isEmpty = true
    · rw [if_pos h2]
      have hg : groupByArchitecture fragments = [] := by
        cases hgg : groupByArchitecture fragments with
        | nil => rfl
        | cons a l =>
          rw [hgg] at h2
          exact absurd h2 (by simp)
      constructor
      · refine ⟨fun _ => Or.inr ?_, fun _ => ⟨_, rfl⟩⟩
        exact (groupByArchitecture_eq_nil_iff fragments).mp hg
      · intro out hout
        exact absurd hout (by simp)
    · rw [if_neg h2]
      have hg : groupByArchitecture fragments ≠ [] := by
        intro h
        rw [h] at h2
        exact h2 rfl
      constructor
      · constructor
        · rintro ⟨msg, hmsg⟩
          exact absurd hmsg (by simp)
        · intro hor
          rcases hor with h | h
          · exact absurd h hf
          · exact absurd ((groupByArchitecture_eq_nil_iff fragments).mpr h) hg
      · intro out hout
        have : out = AssembleOutput.mk
            ((groupByArchitecture fragments).map (fun p => (p.1, serializeFragment p.2)))
            ((groupByArchitecture fragments).map (fun p => p.1)) :=
          (Except.ok.inj hout).symm
        subst this
        constructor
        · intro hmap
          exact hg (List.map_eq_nil_iff.mp hmap)
        · intro hmap
          exact hg (List.map_eq_nil_iff.mp hmap)

/-- Witness for claim C7: an empty fragment list is rejected, and a fragment
with one amd64 entry assembles to a nonempty output. -/
theorem assemble_empty_rejection_witness :
    (∃ msg, assembleAction ([] : List (List Char)) = Except.error msg) ∧
    ((AssembleOutput.mk
        [((("amd64").toList), (("Architecture: amd64\n").toList))]
        [(("amd64").toList)]).perArch ≠ [] ∧
      (AssembleOutput.mk
        [((("amd64").toList), (("Architecture: amd64\n").toList))]
        [(("amd64").toList)]).releaseArchitectures ≠ []) := by
  constructor
  · exact (assemble_empty_rejection []).1.mpr (Or.inl rfl)
  · exact (assemble_empty_rejection [("Architecture: amd64").toList]).2 _ (by rfl)

/-- Counterexample to claim C5: a fragment whose entries appear as arm64
then amd64 makes assembleAction write the per-architecture files and hand
the architecture list to the manifest builder in that first-encounter
order, not in sorted order; only the log line sorts. -/
theorem assemble_order_counterexample :
    assembleAction [("Architecture: arm64\n\nArchitecture: amd64").toList]
      = Except.ok (AssembleOutput.mk
          [((("arm64").toList), (("Architecture: arm64\n").toList)),
           ((("amd64").toList), (("Architecture: amd64\n").toList))]
          [(("arm64").toList), (("amd64").toList)]) ∧
    [(("arm64").toList), (("amd64").toList)]
      ≠ [(("amd64").toList), (("arm64").toList)] := by
  constructor
  · rfl
  · decide

/-- Amended claim C5: a successful assemble run emits the per-architecture
Packages files, and hands the architecture list to the manifest builder, in
first-encounter order of the architectures over the fragment scan, not in
lexicographically sorted order. -/
theorem assemble_order_first_encounter (fragments : List (List Char))
    (out : AssembleOutput) (h : assembleAction fragments = Except.ok out) :
    out.perArch.map Prod.fst = dedupFirst (scannedArchs fragments) ∧
    out.releaseArchitectures = dedupFirst (scannedArchs fragments) := by
  rw [assembleAction_eq_def] at h
  by_cases h1 : fragments.isEmpty = true
  · rw [if_pos h1] at h
    exact absurd h (by simp)
  · rw [if_neg h1] at h
    by_cases h2 : (groupByArchitecture fragments).isEmpty = true
    · rw [if_pos h2] at h
      exact absurd h (by simp)
    · rw [if_neg h2] at h
      have : out = AssembleOutput.mk
          ((groupByArchitecture fragments).map (fun p => (p.1, serializeFragment p.2)))
          ((groupByArchitecture fragments).map (fun p => p.1)) :=
        (Except.ok.inj h).symm
      subst this
      constructor
      · show ((groupByArchitecture fragments).map
            (fun p => (p.1, serializeFragment p.2))).map Prod.fst
          = dedupFirst (scannedArchs fragments)
        rw [List.map_map, ← groupByArchitecture_keys]
        rfl
      · show (groupByArchitecture fragments).map (fun p => p.1)
          = dedupFirst (scannedArchs fragments)
        rw [← groupByArchitecture_keys]

/-- Witness for the amended claim C5 at a one-entry fragment. -/
theorem assemble_order_first_encounter_witness :
    (AssembleOutput.mk
        [((("amd64").toList), (("Architecture: amd64\n").toList))]
        [(("amd64").toList)]).releaseArchitectures
      = dedupFirst (scannedArchs [("Architecture: amd64").toList]) :=
  (assemble_order_first_encounter [("Architecture: amd64").toList] _ (by rfl)).2

/-! ## Claim C2: the Release manifest checksum lines -/

theorem foldl_append_join (L : List RepoFile) (g : RepoFile → List Char) :
    ∀ init, L.foldl (fun acc f => acc ++ g f) init = init ++ (L.map g).flatten := by
  induction L with
  | nil => intro init; simp
  | cons f L' ih =>
    intro init
    rw [List.foldl_cons, ih, List.map_cons, List.flatten_cons, List.append_assoc]

theorem exists_decomp_of_mem (L : List RepoFile) (g : RepoFile → List Char)
    (init : List Char) (f : RepoFile) (hf : f ∈ L) :
    ∃ pre post, L.foldl (fun acc x => acc ++ g x) init = pre ++ g f ++ post := by
  obtain ⟨s, t, hst⟩ := List.append_of_mem hf
  subst hst
  rw [foldl_append_join]
  refine ⟨init ++ (s.map g).flatten, (t.map g).flatten, ?_⟩
  rw [List.map_append, List.map_cons, List.flatten_append, List.flatten_cons]
  simp [List.append_assoc]

/-- Claim C2: for every discovered per-architecture index file, the Release
manifest contains one line made of a leading space, the digest of the file's
decoded text content, the file's byte size and the file's path relative to
the release root, space-separated. -/
theorem makeReleaseContent_line (distPath : List Char) (archs : List (List Char))
    (files : List RepoFile) (sha256hex : List Char → List Char) (date : List Char)
    (f : RepoFile) (hf : f ∈ findFilesRecursive files distPath (("Packages").toList)) :
    ∃ pre post, makeReleaseContent distPath archs files sha256hex date
      = pre ++ (' ' :: sha256hex f.content ++ ' ' :: (Nat.repr f.size).toList ++
          ' ' :: relativePath distPath f.path ++ ['\n']) ++ post := by
  exact exists_decomp_of_mem _ (releaseLine distPath sha256hex) _ f hf

/-- Witness for claim C2 at a one-file release root. -/
theorem makeReleaseContent_line_witness :
    ∃ pre post, makeReleaseContent (("dists/stable").toList) [(("amd64").toList)]
        [RepoFile.mk (("dists/stable/main/binary-amd64/Packages").toList)
          (("content").toList) 139]
        (fun _ => ("h").toList) (("D").toList)
      = pre ++ (' ' :: (fun (_ : List Char) => ("h").toList) (("content").toList) ++
          ' ' :: (Nat.repr 139).toList ++
          ' ' :: relativePath (("dists/stable").toList)
            (("dists/stable/main/binary-amd64/Packages").toList) ++ ['\n']) ++ post :=
  makeReleaseContent_line (("dists/stable").toList) [(("amd64").toList)]
    [RepoFile.mk (("dists/stable/main/binary-amd64/Packages").toList)
      (("content").toList) 139]
    (fun _ => ("h").toList) (("D").toList)
    (RepoFile.mk (("dists/stable/main/binary-amd64/Packages").toList)
      (("content").toList) 139)
    (by decide)

/-! ## Claim C8: a missing or unreadable Packages file yields an empty index -/

/-- Claim C8: parsePackagesFile returns the empty map, rather than
propagating an error, whenever reading the file fails for any reason, a
missing file included; the parse itself is a total function of the content,
so no input raises. -/
theorem parsePackagesFile_missing_empty (ε : Type)
    (readFile : List Char → Except ε (List Char)) (path : List Char) (e : ε)
    (h : readFile path = Except.error e) :
    parsePackagesFile ε readFile path = [] := by
  unfold parsePackagesFile
  rw [h]

/-- Witness for claim C8 with a filesystem whose every read fails. -/
theorem parsePackagesFile_missing_empty_witness :
    parsePackagesFile (List Char) (fun _ => Except.error (("ENOENT").toList))
      (("pool/o/r/v1/Packages").toList) = [] :=
  parsePackagesFile_missing_empty (List Char) (fun _ => Except.error (("ENOENT").toList))
    (("pool/o/r/v1/Packages").toList) (("ENOENT").toList) rfl

end GhReleaseApt
